import Mathlib

/-!
Verification development for the turbodl downloader core.

The repository contains two parallel implementations of the downloader:
the legacy monolith `turbodl/downloader.py` (class `ChunkBuffer`, class
`TurboDL` with `_download_direct` / `_download_with_buffer`) and the newer
split `turbodl/core.py` + `turbodl/utils.py` + `turbodl/functions.py`
(`turbodl/__init__.py` exports `core.TurboDL`).  This file gives a shallow
embedding of the pieces the claims are about:

* the range partitioners `utils.generate_chunk_ranges` and
  `functions.get_chunk_ranges` (both are the same while-loop over a
  precomputed chunk size);
* the RAM-staging `ChunkBuffer` of `downloader.py` and the buffered
  download worker that feeds it;
* the direct (non-buffered) writer of `downloader.py._download_direct`;
* the probe size parsing of `utils.fetch_file_info`;
* the control flow of `core.TurboDL.download` and of the legacy
  `downloader.TurboDL.download` (error propagation, cleanup, hash check),
  with the network outcomes supplied as explicit parameters;
* the sizing model `utils.calculate_max_connections`.  The Python source
  computes with IEEE doubles; the embedding idealises them as real numbers.
  Every numeric fact proved about it keeps a distance from decision
  boundaries that is astronomically larger than double rounding error.

Integer division `math.ceil(a / b)` in the source is the ceiling of a float
division; the embedding uses exact natural ceiling division, which agrees
with the source for all sizes below 2^52 (and in particular on every input
used in a theorem below).
-/

namespace Turbodl

/-! ## Constants (`turbodl/constants.py`) -/

def ONE_MB : Nat := 1024 ^ 2
def ONE_GB : Nat := 1024 ^ 3
def MIN_CHUNK_SIZE : Nat := 16 * 1024 ^ 2
def MAX_CHUNK_SIZE : Nat := 256 * 1024 ^ 2
def MAX_CONNECTIONS : Nat := 24
def MIN_CONNECTIONS : Nat := 2

/-! ## Range partitioners

`utils.generate_chunk_ranges` and `functions.get_chunk_ranges` share the
same loop: repeatedly emit the inclusive range `(start, start + c - 1)`
where `c = min chunkSize remaining`, until no bytes remain.  They differ
only in how `chunkSize` is computed.
-/

/-- Ceiling division on naturals, modelling Python `math.ceil(a / b)`
(for `b ≥ 1`; the float idealisation is discussed in the header). -/
def ceilDiv (a b : Nat) : Nat := (a + b - 1) / b

/-- The while-loop shared by both partitioners.  In the source a zero
chunk size would loop forever; it is unreachable from both call sites
(both pass a chunk size `≥ 1`), and the embedding returns `[]` there. -/
def chunkLoop (chunkSize start remainingBytes : Nat) : List (Nat × Nat) :=
  if _h : remainingBytes = 0 then []
  else if _h2 : min chunkSize remainingBytes = 0 then []
  else
    (start, start + min chunkSize remainingBytes - 1) ::
      chunkLoop chunkSize (start + min chunkSize remainingBytes)
        (remainingBytes - min chunkSize remainingBytes)
termination_by remainingBytes
decreasing_by
  have hle := Nat.min_le_right chunkSize remainingBytes
  omega

/-- `utils.generate_chunk_ranges`: chunk size is
`max(MIN_CHUNK_SIZE, min(ceil(size / conns), MAX_CHUNK_SIZE))`. -/
def generate_chunk_ranges (sizeBytes maxConnections : Nat) : List (Nat × Nat) :=
  chunkLoop (max MIN_CHUNK_SIZE (min (ceilDiv sizeBytes maxConnections) MAX_CHUNK_SIZE))
    0 sizeBytes

/-- `functions.get_chunk_ranges` with the connection count already resolved
to an integer (the `"auto"` resolution happens in the caller): chunk size is
the unclamped `ceil(size / conns)`; size `0` yields the single pair `(0,0)`. -/
def get_chunk_ranges (totalSize maxConnections : Nat) : List (Nat × Nat) :=
  if totalSize = 0 then [(0, 0)]
  else chunkLoop (ceilDiv totalSize maxConnections) 0 totalSize

/-- The multiset of absolute byte offsets covered by a list of inclusive
ranges, in emission order. -/
def rangesSpan (rs : List (Nat × Nat)) : List Nat :=
  rs.flatMap fun p => List.range' p.1 (p.2 + 1 - p.1)

/-! ## Direct (non-buffered) writer — `downloader.TurboDL._download_direct`

Each worker owns an inclusive range `(start, end)` and iterates its HTTP
response in chunks.  For each chunk it acquires the global write lock,
seeks to its cursor, writes the chunk, and advances the cursor by the
chunk length.  The file is modelled as a total function from absolute
offset to byte (POSIX semantics of `seek`+`write`); a write replaces the
bytes at `[pos, pos + len)` and leaves everything else unchanged.  The
lock makes each seek+write pair atomic, so a whole download execution is
an interleaving of the workers' write sequences; the theorems below
quantify over arbitrary permutations of the combined writes, which
include all such interleavings. -/

/-- One atomic seek+write pair at absolute offset `pos`. -/
def writeAt (f : Nat → Nat) (pos : Nat) (data : List Nat) : Nat → Nat :=
  fun k => if pos ≤ k ∧ k < pos + data.length then data.getD (k - pos) 0 else f k

/-- Apply a sequence of seek+write pairs in order. -/
def applyWrites (f : Nat → Nat) (ws : List (Nat × List Nat)) : Nat → Nat :=
  ws.foldl (fun g w => writeAt g w.1 w.2) f

/-- The write sequence a direct-mode worker performs: its cursor starts at
its range start and advances by each received chunk's length. -/
def directWorkerWrites (start : Nat) (chunks : List (List Nat)) : List (Nat × List Nat) :=
  match chunks with
  | [] => []
  | c :: cs => (start, c) :: directWorkerWrites (start + c.length) cs

/-- A write is faithful to the remote file when every byte it stores equals
the remote byte at the same absolute offset. -/
def GoodWrite (remote : List Nat) (w : Nat × List Nat) : Prop :=
  ∀ j, j < w.2.length → w.2.getD j 0 = remote.getD (w.1 + j) 0

/-- The combined write sequence of all direct-mode workers, range by range,
each worker receiving the chunk list paired with its range. -/
def allDirectWrites (ranges : List (Nat × Nat)) (streams : List (List (List Nat))) :
    List (Nat × List Nat) :=
  (ranges.zip streams).flatMap fun p => directWorkerWrites p.1.1 p.2

/-! ## `downloader.ChunkBuffer` and the buffered download worker

`ChunkBuffer.__init__(chunk_size_bytes=256·1024², max_buffer_bytes=1·1024³)`
sets `max_buffer_size = min(max_buffer_bytes, 0.30 · available_RAM)`.  The
available RAM is an environment quantity; the embedding takes the computed
30% allowance as an explicit parameter `ramAllowance`.  Bytes are modelled
as naturals; `current_buffer` is the staged byte list (its length is
`current_size`, which the source tracks redundantly, as does the model). -/

structure ChunkBuffer where
  chunkSize : Nat
  maxBufferSize : Nat
  currentBuffer : List Nat
  currentSize : Nat
  totalBuffered : Nat

/-- `ChunkBuffer.__init__`. -/
def ChunkBuffer.init (chunkSizeBytes maxBufferBytes ramAllowance : Nat) : ChunkBuffer :=
  { chunkSize := chunkSizeBytes
    maxBufferSize := min maxBufferBytes ramAllowance
    currentBuffer := []
    currentSize := 0
    totalBuffered := 0 }

/-- `ChunkBuffer.write(data, total_file_size_bytes)`: refuses (returns the
unchanged buffer and `none`) when appending would exceed `max_buffer_size`
against `current_size` or `total_buffered`, or exceed the file size against
`total_buffered`; otherwise appends, and emits the staged bytes when
`current_size ≥ chunk_size`, `total_buffered ≥ file size`, or
`current_size ≥ max_buffer_size`. -/
def ChunkBuffer.write (b : ChunkBuffer) (data : List Nat) (totalFileSizeBytes : Nat) :
    ChunkBuffer × Option (List Nat) :=
  if b.maxBufferSize < b.currentSize + data.length then (b, none)
  else if b.maxBufferSize < b.totalBuffered + data.length then (b, none)
  else if totalFileSizeBytes < b.totalBuffered + data.length then (b, none)
  else if b.chunkSize ≤ b.currentSize + data.length
      ∨ totalFileSizeBytes ≤ b.totalBuffered + data.length
      ∨ b.maxBufferSize ≤ b.currentSize + data.length then
    (⟨b.chunkSize, b.maxBufferSize, [], 0, b.totalBuffered + data.length⟩,
      some (b.currentBuffer ++ data))
  else
    (⟨b.chunkSize, b.maxBufferSize, b.currentBuffer ++ data,
        b.currentSize + data.length, b.totalBuffered + data.length⟩,
      none)

/-- Run a sequence of writes (a worker's network chunks, in order) through a
buffer, returning the final buffer state. -/
def runWrites (b : ChunkBuffer) (stream : List (List Nat)) (fs : Nat) : ChunkBuffer :=
  match stream with
  | [] => b
  | d :: ds => runWrites (ChunkBuffer.write b d fs).1 ds fs

/-- Total number of bytes `_download_with_buffer_download_worker` writes to
the output file for its range: the sum of the emitted blob lengths over the
stream, plus the residual `current_buffer` contents flushed after the
stream ends.  A `none` result from `write` — whether an absorb or a refusal
— triggers no file write and no retry; refused data is simply dropped. -/
def bufferedWorkerWritten (b : ChunkBuffer) (stream : List (List Nat)) (fs : Nat) : Nat :=
  match stream with
  | [] => b.currentBuffer.length
  | d :: ds =>
    match ChunkBuffer.write b d fs with
    | (b2, some blob) => blob.length + bufferedWorkerWritten b2 ds fs
    | (b2, none) => bufferedWorkerWritten b2 ds fs

/-! ## Probe size parsing — `utils.fetch_file_info` (lines 449-462)

The probe tries `int(content_range.split("/")[-1])` first (errors
suppressed), falls back to `int(content_length)` when the size so far is
falsy (`None` or `0`), and raises `InvalidFileSizeError` when the final
size is falsy or non-positive.  `parsePyInt` models the Python `int`
constructor on the forms that matter here: optional surrounding ASCII
whitespace, an optional sign, and a nonempty digit run with single
underscores allowed between digits (Python 3.6+); exotic unicode digits
and whitespace are not modelled. -/

def isPySpace (c : Char) : Bool :=
  c = ' ' || c = '\t' || c = '\n' || c = '\r' || c = '\x0b' || c = '\x0c'

def hasDoubleUnderscore : List Char → Bool
  | a :: b :: t => (a = '_' && b = '_') || hasDoubleUnderscore (b :: t)
  | _ => false

def pyDigits (cs : List Char) : Option Nat :=
  if cs.isEmpty then none
  else if cs.head? = some '_' || cs.getLast? = some '_' then none
  else if hasDoubleUnderscore cs then none
  else
    let ds := cs.filter (fun c => c ≠ '_')
    if ds.all Char.isDigit && !ds.isEmpty then
      some (ds.foldl (fun a c => 10 * a + (c.toNat - 48)) 0)
    else none

def parsePyInt (s : String) : Option Int :=
  match ((s.toList.dropWhile fun c => isPySpace c).reverse.dropWhile
      fun c => isPySpace c).reverse with
  | '+' :: rest => (pyDigits rest).map fun n => (n : Int)
  | '-' :: rest => (pyDigits rest).map fun n => -(n : Int)
  | rest => (pyDigits rest).map fun n => (n : Int)

/-- `content_range.split("/")[-1]`. -/
def lastSlashPart (s : String) : String := (s.split (· == '/')).getLastD ""

/-- The size value the probe can extract from a `Content-Range` header. -/
def crTotalParse (cr : Option String) : Option Int :=
  cr.bind fun s => parsePyInt (lastSlashPart s)

/-- The size value the probe can extract from a `Content-Length` header. -/
def clParse (cl : Option String) : Option Int := cl.bind parsePyInt

/-- Error kinds raised by the downloader (`turbodl.exceptions`). -/
inductive ErrKind where
  | invalidArgument
  | remoteFile
  | invalidFileSize
  | unidentifiedFileSize
  | notEnoughSpace
  | download
  | hashVerification
  | downloadInterrupted
  | onlineRequest
deriving DecidableEq

/-- Size resolution of `utils.fetch_file_info`: `Content-Range` total
first (errors suppressed), `Content-Length` as fallback when the size so
far is falsy, then the `if not size or size <= 0` guard. -/
def probeSize (cr cl : Option String) : Except ErrKind Int :=
  match (if crTotalParse cr = none ∨ crTotalParse cr = some 0 then
      match cl with
      | some c =>
        match parsePyInt c with
        | some v => some v
        | none => crTotalParse cr
      | none => crTotalParse cr
    else crTotalParse cr) with
  | none => Except.error ErrKind.invalidFileSize
  | some v => if v ≤ 0 then Except.error ErrKind.invalidFileSize else Except.ok v

/-! ## Sizing model — `utils.calculate_max_connections`

The source computes with IEEE doubles; the model uses real numbers (see
the header note).  `pyRound` is Python's `round`: round-half-to-even. -/

open scoped Classical in
noncomputable def pyRound (x : ℝ) : ℤ :=
  if Int.fract x = 1 / 2 then (if Even ⌊x⌋ then ⌊x⌋ else ⌊x⌋ + 1) else round x

open scoped Classical in
noncomputable def baseConnections (sizeMb : ℝ) : ℝ :=
  if sizeMb < 1 then 2
  else if sizeMb < 10 then 2 + 1.2 * Real.logb 10 (sizeMb + 1)
  else if sizeMb < 50 then 4 + 2.0 * Real.logb 10 (sizeMb / 10 + 0.5)
  else if sizeMb < 100 then 6 + 2.5 * Real.logb 10 (sizeMb / 50 + 0.7)
  else if sizeMb < 500 then 8 + 3.0 * Real.logb 10 (sizeMb / 100 + 0.8)
  else if sizeMb < 1000 then 12 + 3.5 * Real.logb 10 (sizeMb / 500 + 0.85)
  else if sizeMb < 5000 then 16 + 4.0 * Real.logb 10 (sizeMb / 1000 + 0.9)
  else if sizeMb < 10000 then 18 + 4.5 * Real.logb 10 (sizeMb / 5000 + 0.95)
  else 20 + 4.0 * (1 - Real.exp (-sizeMb / 20000))

open scoped Classical in
noncomputable def speedFactor (mbps : ℝ) : ℝ :=
  if mbps < 10 then 0.8
  else 0.8 + 0.7 * (1 / (1 + Real.exp (-(0.015) * (min mbps 500 - 100))))

open scoped Classical in
noncomputable def adjustedConnections (sizeMb mbps : ℝ) : ℝ :=
  if sizeMb < 5 ∧ mbps > 100 then
    min (baseConnections sizeMb * speedFactor mbps) (4 + sizeMb / 2)
  else if sizeMb > 1000 ∧ mbps < 20 then
    min (baseConnections sizeMb * speedFactor mbps * 1.2) (MAX_CONNECTIONS : ℝ)
  else if sizeMb > 5000 ∧ mbps > 300 then
    min (baseConnections sizeMb * speedFactor mbps * 1.1) (MAX_CONNECTIONS : ℝ)
  else baseConnections sizeMb * speedFactor mbps

/-- `utils.calculate_max_connections(size_bytes, connection_speed_mbps)`. -/
noncomputable def calculate_max_connections (sizeBytes : Nat) (mbps : ℝ) : Nat :=
  (max (MIN_CONNECTIONS : ℤ) (min (MAX_CONNECTIONS : ℤ)
    (pyRound (adjustedConnections ((sizeBytes : ℝ) / (ONE_MB : ℝ)) mbps)))).toNat

/-! ## Control flow of `core.TurboDL.download` and of the legacy
`downloader.TurboDL.download`

The network and filesystem outcomes (probe result, free-space check,
transfer outcome, hash comparison) are supplied as parameters; the model
captures which error the call raises, whether the output file exists on
disk when the call returns, whether a byte transfer was started, which
connection count the transfer used, and whether `output_path` is set. -/

inductive TransferOutcome where
  | ok
  | failed
  | interrupted
deriving DecidableEq

/-- `max_connections` as stored on the instance: `"auto"` or an integer. -/
inductive ConnSetting where
  | auto
  | explicit (n : Nat)
deriving DecidableEq

/-- The part of `RemoteFileInfo` the control flow depends on. -/
structure RemoteInfoM where
  size : Nat
deriving DecidableEq

structure CoreState where
  maxConnections : ConnSetting
  connectionSpeedMbps : ℝ

structure CoreReport where
  raised : Option ErrKind
  fileOnDisk : Bool
  transferStarted : Bool
  usedConnections : Option Nat
  outputPathSet : Bool
deriving DecidableEq

/-- `core.py` lines 195-197: `"auto"` is resolved by writing the computed
integer back into `self._max_connections`. -/
noncomputable def resolveMaxConnections :
    ConnSetting → Nat → ℝ → Nat × ConnSetting
  | ConnSetting.auto, size, speed =>
    (calculate_max_connections size speed,
      ConnSetting.explicit (calculate_max_connections size speed))
  | ConnSetting.explicit n, _, _ => (n, ConnSetting.explicit n)

/-- Control flow of `core.TurboDL.download`: probe, connection resolution
(mutating the instance state), space check, transfer with cleanup-on-abort,
then `verify_hash` — which raises on mismatch but performs no unlink. -/
noncomputable def coreDownload (st : CoreState) (probe : Except ErrKind RemoteInfoM)
    (spaceOk : Bool) (transfer : TransferOutcome) (hashMatches : Option Bool) :
    CoreState × CoreReport :=
  match probe with
  | Except.error e => (st, ⟨some e, false, false, none, false⟩)
  | Except.ok info =>
    (⟨(resolveMaxConnections st.maxConnections info.size st.connectionSpeedMbps).2,
        st.connectionSpeedMbps⟩,
      if spaceOk then
        match transfer with
        | TransferOutcome.interrupted =>
          ⟨some ErrKind.downloadInterrupted, false, true,
            some (resolveMaxConnections st.maxConnections info.size st.connectionSpeedMbps).1,
            false⟩
        | TransferOutcome.failed =>
          ⟨some ErrKind.download, false, true,
            some (resolveMaxConnections st.maxConnections info.size st.connectionSpeedMbps).1,
            false⟩
        | TransferOutcome.ok =>
          match hashMatches with
          | some false =>
            ⟨some ErrKind.hashVerification, true, true,
              some (resolveMaxConnections st.maxConnections info.size st.connectionSpeedMbps).1,
              true⟩
          | _ =>
            ⟨none, true, true,
              some (resolveMaxConnections st.maxConnections info.size st.connectionSpeedMbps).1,
              true⟩
      else ⟨some ErrKind.notEnoughSpace, false, false, none, false⟩)

/-- Control flow of the legacy `downloader.TurboDL.download`: the probe may
yield no info (`None`); `KeyboardInterrupt` unlinks the partial file and
RETURNS without raising; any other transfer failure raises `DownloadError`
without unlinking; a hash mismatch unlinks and raises. -/
def downloaderDownload (fetch : Except ErrKind (Option Nat)) (spaceOk : Bool)
    (transfer : TransferOutcome) (hashMatches : Option Bool) : CoreReport :=
  match fetch with
  | Except.error e => ⟨some e, false, false, none, false⟩
  | Except.ok info =>
    if info.isSome ∧ ¬ spaceOk then ⟨some ErrKind.notEnoughSpace, false, false, none, false⟩
    else
      match transfer with
      | TransferOutcome.interrupted => ⟨none, false, true, none, false⟩
      | TransferOutcome.failed => ⟨some ErrKind.download, true, true, none, true⟩
      | TransferOutcome.ok =>
        match hashMatches with
        | some false => ⟨some ErrKind.hashVerification, false, true, none, false⟩
        | _ => ⟨none, true, true, none, true⟩

end Turbodl

namespace Turbodl

/-! ## Loop lemmas shared by the partitioner claims -/

theorem ceilDiv_pos {a b : Nat} (ha : 1 ≤ a) (hb : 1 ≤ b) : 1 ≤ ceilDiv a b := by
  rw [ceilDiv, Nat.le_div_iff_mul_le (by omega : 0 < b)]
  omega

theorem ceilDiv_zero_left {b : Nat} (hb : 1 ≤ b) : ceilDiv 0 b = 0 := by
  rw [ceilDiv]
  apply Nat.div_eq_of_lt
  omega

theorem ceilDiv_mul_ge {a b : Nat} (hb : 1 ≤ b) : a ≤ b * ceilDiv a b := by
  have hd := Nat.div_add_mod (a + b - 1) b
  have hmod := Nat.mod_lt (a + b - 1) (by omega : 0 < b)
  rw [ceilDiv]
  omega

theorem ceilDiv_le_of_le {a b n : Nat} (hb : 1 ≤ b) (h : a ≤ n * b) :
    ceilDiv a b ≤ n := by
  rw [ceilDiv]
  by_contra hgt
  push_neg at hgt
  have hdiv := (Nat.le_div_iff_mul_le (by omega : 0 < b)).mp hgt
  have hmul : (n + 1) * b = n * b + b := by ring
  have hmul2 : n.succ * b = n * b + b := by
    rw [Nat.succ_mul]
  omega

theorem chunkLoop_span (c : Nat) (hc : 1 ≤ c) :
    ∀ rem start, rangesSpan (chunkLoop c start rem) = List.range' start rem := by
  intro rem
  induction rem using Nat.strong_induction_on with
  | _ rem ih =>
    intro start
    rw [chunkLoop]
    by_cases h : rem = 0
    · simp [h, rangesSpan]
    · have hm1 : 1 ≤ min c rem := by
        have := Nat.min_le_right c rem
        have h2 := Nat.le_min.mpr ⟨hc, Nat.one_le_iff_ne_zero.mpr h⟩
        omega
      have hmr : min c rem ≤ rem := Nat.min_le_right c rem
      rw [dif_neg h, dif_neg (by omega)]
      have ihx := ih (rem - min c rem) (by omega) (start + min c rem)
      simp only [rangesSpan, List.flatMap_cons] at ihx ⊢
      rw [ihx]
      have h1 : start + min c rem - 1 + 1 - start = min c rem := by omega
      rw [h1]
      rw [List.range'_append_1]
      congr 1
      omega

theorem chunkLoop_length (c : Nat) (hc : 1 ≤ c) :
    ∀ rem start, (chunkLoop c start rem).length = ceilDiv rem c := by
  intro rem
  induction rem using Nat.strong_induction_on with
  | _ rem ih =>
    intro start
    rw [chunkLoop]
    by_cases h : rem = 0
    · rw [dif_pos h, h]
      rw [ceilDiv_zero_left hc]
      rfl
    · have hm1 : 1 ≤ min c rem := by
        have := Nat.min_le_right c rem
        have h2 := Nat.le_min.mpr ⟨hc, Nat.one_le_iff_ne_zero.mpr h⟩
        omega
      have hmr : min c rem ≤ rem := Nat.min_le_right c rem
      rw [dif_neg h, dif_neg (by omega)]
      have ihx := ih (rem - min c rem) (by omega) (start + min c rem)
      simp only [List.length_cons, ihx]
      rcases Nat.le_total rem c with hrc | hcr
      · -- last chunk: remaining fits into one chunk
        have hmin : min c rem = rem := by omega
        rw [hmin]
        have hz : rem - rem = 0 := by omega
        rw [hz, ceilDiv_zero_left hc]
        have hone : ceilDiv rem c = 1 := by
          rw [ceilDiv, show rem + c - 1 = (rem - 1) + c by omega,
            Nat.add_div_right _ (by omega : 0 < c),
            Nat.div_eq_of_lt (by omega : rem - 1 < c)]
        rw [hone]
      · -- full chunk of size c
        have hmin : min c rem = c := by omega
        rw [hmin, ceilDiv, ceilDiv,
          show rem + c - 1 = (rem - c + c - 1) + c by omega,
          Nat.add_div_right _ (by omega : 0 < c)]

/-- Shape facts about every emitted range: it starts at or after the loop
start, is well formed (`fst ≤ snd`), ends inside the remaining region, and
its length is at most the chunk size. -/
theorem chunkLoop_mem (c : Nat) (hc : 1 ≤ c) :
    ∀ rem start, ∀ p ∈ chunkLoop c start rem,
      start ≤ p.1 ∧ p.1 ≤ p.2 ∧ p.2 < start + rem ∧ p.2 + 1 - p.1 ≤ c := by
  intro rem
  induction rem using Nat.strong_induction_on with
  | _ rem ih =>
    intro start p hp
    rw [chunkLoop] at hp
    by_cases h : rem = 0
    · simp [h] at hp
    · have hm1 : 1 ≤ min c rem := by
        have := Nat.min_le_right c rem
        have h2 := Nat.le_min.mpr ⟨hc, Nat.one_le_iff_ne_zero.mpr h⟩
        omega
      have hmr : min c rem ≤ rem := Nat.min_le_right c rem
      have hmc : min c rem ≤ c := Nat.min_le_left c rem
      rw [dif_neg h, dif_neg (by omega)] at hp
      rcases List.mem_cons.mp hp with heq | htail
      · subst heq
        constructor
        · exact Nat.le_refl _
        constructor
        · simp only
          omega
        constructor
        · simp only
          omega
        · simp only
          omega
      · have := ih (rem - min c rem) (by omega) (start + min c rem) p htail
        omega

/-- All ranges but the last have length exactly the chunk size. -/
theorem chunkLoop_dropLast_len (c : Nat) (hc : 1 ≤ c) :
    ∀ rem start, ∀ p ∈ (chunkLoop c start rem).dropLast, p.2 + 1 - p.1 = c := by
  intro rem
  induction rem using Nat.strong_induction_on with
  | _ rem ih =>
    intro start p hp
    rw [chunkLoop] at hp
    by_cases h : rem = 0
    · simp [h] at hp
    · have hm1 : 1 ≤ min c rem := by
        have := Nat.min_le_right c rem
        have h2 := Nat.le_min.mpr ⟨hc, Nat.one_le_iff_ne_zero.mpr h⟩
        omega
      have hmr : min c rem ≤ rem := Nat.min_le_right c rem
      rw [dif_neg h, dif_neg (by omega)] at hp
      by_cases htl : rem - min c rem = 0
      · -- the emitted range is the last one; dropLast removes it
        have : chunkLoop c (start + min c rem) (rem - min c rem) = [] := by
          rw [htl, chunkLoop]
          simp
        rw [this] at hp
        simp at hp
      · have hne : chunkLoop c (start + min c rem) (rem - min c rem) ≠ [] := by
          intro hnil
          have hlen := chunkLoop_length c hc (rem - min c rem) (start + min c rem)
          rw [hnil] at hlen
          have hpos := ceilDiv_pos (by omega : 1 ≤ rem - min c rem) hc
          simp at hlen
          omega
        rw [List.dropLast_cons_of_ne_nil hne] at hp
        rcases List.mem_cons.mp hp with heq | htail
        · subst heq
          simp only
          -- a non-last range is a full chunk: min c rem = c here
          have hcm : min c rem = c := by
            rcases Nat.le_total rem c with hrc | hcr
            · omega
            · omega
          omega
        · exact ih (rem - min c rem) (by omega) (start + min c rem) p htail

/-- Every emitted range is nonempty. -/
theorem chunkLoop_len_pos (c : Nat) (hc : 1 ≤ c) :
    ∀ rem start, ∀ p ∈ chunkLoop c start rem, 1 ≤ p.2 + 1 - p.1 := by
  intro rem start p hp
  have := chunkLoop_mem c hc rem start p hp
  omega

end Turbodl

namespace Turbodl

/-! ## Claim C4 and claim C7: partitioner correctness and range count -/

/-- C4: for every file size of at least MIN_CHUNK_SIZE (16 MiB) and every
connection count in [2,24], `generate_chunk_ranges` emits contiguous,
non-overlapping inclusive ranges whose ordered concatenation is exactly
the offsets 0..size−1 (no gaps, no overlaps), every chunk except possibly
the last has length in [MIN_CHUNK_SIZE, MAX_CHUNK_SIZE], and every chunk,
the last included, is nonempty with length at most MAX_CHUNK_SIZE. -/
theorem generate_chunk_ranges_partition (size conns : Nat)
    (hsize : MIN_CHUNK_SIZE ≤ size) (hlo : 2 ≤ conns) (hhi : conns ≤ 24) :
    rangesSpan (generate_chunk_ranges size conns) = List.range' 0 size
    ∧ (∀ p ∈ (generate_chunk_ranges size conns).dropLast,
        MIN_CHUNK_SIZE ≤ p.2 + 1 - p.1 ∧ p.2 + 1 - p.1 ≤ MAX_CHUNK_SIZE)
    ∧ (∀ p ∈ generate_chunk_ranges size conns,
        1 ≤ p.2 + 1 - p.1 ∧ p.2 + 1 - p.1 ≤ MAX_CHUNK_SIZE) := by
  have hminmax : MIN_CHUNK_SIZE ≤ MAX_CHUNK_SIZE := by
    simp only [MIN_CHUNK_SIZE, MAX_CHUNK_SIZE]
    norm_num
  set c := max MIN_CHUNK_SIZE (min (ceilDiv size conns) MAX_CHUNK_SIZE) with hc
  have hc_lo : MIN_CHUNK_SIZE ≤ c := le_max_left _ _
  have hc_hi : c ≤ MAX_CHUNK_SIZE := by
    have h1 : min (ceilDiv size conns) MAX_CHUNK_SIZE ≤ MAX_CHUNK_SIZE :=
      min_le_right _ _
    omega
  have hc1 : 1 ≤ c := by
    have : 1 ≤ MIN_CHUNK_SIZE := by simp only [MIN_CHUNK_SIZE]; norm_num
    omega
  refine ⟨?_, ?_, ?_⟩
  · exact chunkLoop_span c hc1 size 0
  · intro p hp
    have := chunkLoop_dropLast_len c hc1 size 0 p hp
    omega
  · intro p hp
    have h1 := chunkLoop_mem c hc1 size 0 p hp
    omega

/-- Witness for C4 at size = 16 MiB, conns = 2. -/
theorem generate_chunk_ranges_partition_witness :
    (MIN_CHUNK_SIZE ≤ 16777216 ∧ 2 ≤ 2 ∧ 2 ≤ 24)
    ∧ (rangesSpan (generate_chunk_ranges 16777216 2) = List.range' 0 16777216
      ∧ (∀ p ∈ (generate_chunk_ranges 16777216 2).dropLast,
          MIN_CHUNK_SIZE ≤ p.2 + 1 - p.1 ∧ p.2 + 1 - p.1 ≤ MAX_CHUNK_SIZE)
      ∧ (∀ p ∈ generate_chunk_ranges 16777216 2,
          1 ≤ p.2 + 1 - p.1 ∧ p.2 + 1 - p.1 ≤ MAX_CHUNK_SIZE)) :=
  ⟨⟨by norm_num [MIN_CHUNK_SIZE], by norm_num, by norm_num⟩,
    generate_chunk_ranges_partition 16777216 2
      (by norm_num [MIN_CHUNK_SIZE]) (by norm_num) (by norm_num)⟩

/-- C7 counterexample: at size = 10 GiB and conns = 2, `generate_chunk_ranges`
produces 40 ranges (the chunk size is clamped to MAX_CHUNK_SIZE = 256 MiB),
which exceeds the connection count, refuting the claim that the number of
ranges never exceeds the chosen connection count. -/
theorem generate_chunk_ranges_count_counterexample :
    ¬ ((generate_chunk_ranges (10 * 1024 ^ 3) 2).length ≤ 2) := by
  have hc1 : (1 : Nat) ≤ max MIN_CHUNK_SIZE
      (min (ceilDiv (10 * 1024 ^ 3) 2) MAX_CHUNK_SIZE) := by
    have : 1 ≤ MIN_CHUNK_SIZE := by simp only [MIN_CHUNK_SIZE]; norm_num
    omega
  have h := chunkLoop_length _ hc1 (10 * 1024 ^ 3) 0
  rw [generate_chunk_ranges, h]
  norm_num [ceilDiv, MIN_CHUNK_SIZE, MAX_CHUNK_SIZE]

/-- C7 amended: for every size ≥ 1 and conns ∈ [2,24] such that the
per-connection chunk ⌈size/conns⌉ does not exceed MAX_CHUNK_SIZE (so the
clamp does not engage), the number of ranges is at most the connection
count.  (When ⌈size/conns⌉ > MAX_CHUNK_SIZE the count is
⌈size/MAX_CHUNK_SIZE⌉, which can be larger, as the counterexample shows.) -/
theorem generate_chunk_ranges_count_le_connections (size conns : Nat)
    (_hsize : 1 ≤ size) (_hlo : 2 ≤ conns) (_hhi : conns ≤ 24)
    (hclamp : ceilDiv size conns ≤ MAX_CHUNK_SIZE) :
    (generate_chunk_ranges size conns).length ≤ conns := by
  set q := ceilDiv size conns with hq
  have hq1 : 1 ≤ q := ceilDiv_pos _hsize (by omega)
  have hmin : min q MAX_CHUNK_SIZE = q := by omega
  set c := max MIN_CHUNK_SIZE (min q MAX_CHUNK_SIZE) with hc
  have hc1 : 1 ≤ c := by
    have : 1 ≤ MIN_CHUNK_SIZE := by simp only [MIN_CHUNK_SIZE]; norm_num
    omega
  have hqc : q ≤ c := by
    rw [hc, hmin]
    omega
  have h := chunkLoop_length c hc1 size 0
  rw [generate_chunk_ranges, ← hc, h]
  -- size ≤ conns * q, hence ceilDiv size c ≤ ceilDiv size q ≤ conns
  have hsz : size ≤ conns * q := ceilDiv_mul_ge (by omega)
  apply ceilDiv_le_of_le hc1
  calc size ≤ conns * q := hsz
    _ ≤ conns * c := Nat.mul_le_mul_left conns hqc

/-- Witness for the amended C7 at size = 16 MiB, conns = 2. -/
theorem generate_chunk_ranges_count_le_connections_witness :
    (1 ≤ 16777216 ∧ 2 ≤ 2 ∧ 2 ≤ 24 ∧ ceilDiv 16777216 2 ≤ MAX_CHUNK_SIZE)
    ∧ (generate_chunk_ranges 16777216 2).length ≤ 2 :=
  ⟨⟨by norm_num, by norm_num, by norm_num, by norm_num [ceilDiv, MAX_CHUNK_SIZE]⟩,
    generate_chunk_ranges_count_le_connections 16777216 2 (by norm_num)
      (by norm_num) (by norm_num) (by norm_num [ceilDiv, MAX_CHUNK_SIZE])⟩

end Turbodl

namespace Turbodl

/-! ## Claim C3: direct mode reproduces the remote bytes -/

theorem applyWrites_not_covered (ws : List (Nat × List Nat)) :
    ∀ (f : Nat → Nat) (k : Nat),
      (∀ w ∈ ws, ¬ (w.1 ≤ k ∧ k < w.1 + w.2.length)) → applyWrites f ws k = f k := by
  induction ws with
  | nil => intro f k _; rfl
  | cons w t ih =>
    intro f k h
    have hw := h w (List.mem_cons_self w t)
    have ht : ∀ v ∈ t, ¬ (v.1 ≤ k ∧ k < v.1 + v.2.length) := fun v hv =>
      h v (List.mem_cons_of_mem w hv)
    show applyWrites (writeAt f w.1 w.2) t k = f k
    rw [ih (writeAt f w.1 w.2) k ht, writeAt, if_neg hw]

theorem applyWrites_covered (remote : List Nat) (ws : List (Nat × List Nat)) :
    ∀ (f : Nat → Nat) (k : Nat),
      (∀ w ∈ ws, GoodWrite remote w) →
      (∃ w ∈ ws, w.1 ≤ k ∧ k < w.1 + w.2.length) →
      applyWrites f ws k = remote.getD k 0 := by
  induction ws with
  | nil =>
    intro f k _ hex
    rcases hex with ⟨w, hw, _⟩
    exact absurd hw (List.not_mem_nil w)
  | cons w t ih =>
    intro f k hg hex
    have hgt : ∀ v ∈ t, GoodWrite remote v := fun v hv => hg v (List.mem_cons_of_mem w hv)
    show applyWrites (writeAt f w.1 w.2) t k = remote.getD k 0
    by_cases hcov : ∃ v ∈ t, v.1 ≤ k ∧ k < v.1 + v.2.length
    · exact ih (writeAt f w.1 w.2) k hgt hcov
    · push_neg at hcov
      have hw : w.1 ≤ k ∧ k < w.1 + w.2.length := by
        rcases hex with ⟨v, hv, hvk⟩
        rcases List.mem_cons.mp hv with rfl | hvt
        · exact hvk
        · exact absurd hvk (by
            have := hcov v hvt
            intro hc
            omega)
      rw [applyWrites_not_covered t (writeAt f w.1 w.2) k (by
        intro v hv
        have := hcov v hv
        intro hc
        omega)]
      rw [writeAt, if_pos hw]
      have := hg w (List.mem_cons_self w t) (k - w.1) (by omega)
      rw [this]
      congr 1
      omega
theorem directWorkerWrites_good (remote : List Nat) :
    ∀ (chunks : List (List Nat)) (s : Nat),
      (∀ j, j < chunks.flatten.length →
        chunks.flatten.getD j 0 = remote.getD (s + j) 0) →
      ∀ w ∈ directWorkerWrites s chunks, GoodWrite remote w := by
  intro chunks
  induction chunks with
  | nil => intro s _ w hw; simp [directWorkerWrites] at hw
  | cons c cs ih =>
    intro s h w hw
    have hfl : (c :: cs).flatten.length = c.length + cs.flatten.length := by
      rw [List.flatten_cons, List.length_append]
    rw [directWorkerWrites] at hw
    rcases List.mem_cons.mp hw with rfl | hwt
    · intro j hj
      simp only at hj ⊢
      have hjc : j < c.length := hj
      have := h j (by omega)
      rw [← this]
      rw [List.flatten_cons, List.getD_eq_getElem?_getD, List.getD_eq_getElem?_getD,
        List.getElem?_append_left hjc]
    · refine ih (s + c.length) ?_ w hwt
      intro j hj
      have := h (c.length + j) (by omega)
      rw [show s + (c.length + j) = s + c.length + j by omega] at this
      rw [← this]
      rw [List.flatten_cons, List.getD_eq_getElem?_getD, List.getD_eq_getElem?_getD,
        List.getElem?_append_right (by omega : c.length ≤ c.length + j),
        show c.length + j - c.length = j by omega]

theorem directWorkerWrites_cover :
    ∀ (chunks : List (List Nat)) (s k : Nat),
      s ≤ k → k < s + chunks.flatten.length →
      ∃ w ∈ directWorkerWrites s chunks, w.1 ≤ k ∧ k < w.1 + w.2.length := by
  intro chunks
  induction chunks with
  | nil =>
    intro s k h1 h2
    rw [List.flatten_nil] at h2
    simp at h2
    omega
  | cons c cs ih =>
    intro s k h1 h2
    have hfl : (c :: cs).flatten.length = c.length + cs.flatten.length := by
      rw [List.flatten_cons, List.length_append]
    rw [directWorkerWrites]
    by_cases hk : k < s + c.length
    · exact ⟨(s, c), List.mem_cons_self _ _, h1, hk⟩
    · push_neg at hk
      rcases ih (s + c.length) k hk (by omega) with ⟨w, hw, hwk⟩
      exact ⟨w, List.mem_cons_of_mem _ hw, hwk⟩

theorem zip_exists_of_mem {α β : Type} (l₁ : List α) (l₂ : List β)
    (hlen : l₁.length = l₂.length) :
    ∀ a ∈ l₁, ∃ b, (a, b) ∈ l₁.zip l₂ := by
  intro a ha
  rcases List.mem_iff_getElem.mp ha with ⟨i, hi, hai⟩
  have hi2 : i < l₂.length := by omega
  have hiz : i < (l₁.zip l₂).length := by
    rw [List.length_zip]
    omega
  refine ⟨l₂[i], ?_⟩
  have : (l₁.zip l₂)[i] = (l₁[i], l₂[i]) := List.getElem_zip
  rw [← hai]
  rw [← this]
  exact List.getElem_mem hiz

/-- Bytes of a worker's received stream, elementwise: if the concatenation
of the worker's chunks equals the slice of the remote file at its range,
then each received byte equals the remote byte at the corresponding
absolute offset. -/
theorem flatten_slice_elementwise (remote : List Nat) (s L : Nat)
    (F : List Nat) (hF : F = (remote.drop s).take L) :
    ∀ j, j < F.length → F.getD j 0 = remote.getD (s + j) 0 := by
  intro j hj
  subst hF
  have hjL : j < L := by
    rw [List.length_take] at hj
    omega
  rw [List.getD_eq_getElem?_getD, List.getD_eq_getElem?_getD,
    List.getElem?_take, if_pos hjL, List.getElem?_drop]

/-- C3: in direct (non-buffered) mode, if every worker receives exactly the
bytes of its assigned inclusive range in order (its chunk concatenation is
the corresponding slice of the remote file), then for every interleaving of
the workers' lock-protected seek+write pairs (any permutation of the
combined writes) and any initial file contents, the assembled file's byte
at every absolute offset `k < size` equals the remote byte at `k`. -/
theorem direct_download_reproduces_remote (size conns : Nat)
    (hs : 1 ≤ size) (hc : 1 ≤ conns)
    (remote : List Nat) (hr : remote.length = size)
    (streams : List (List (List Nat)))
    (hlen : streams.length = (get_chunk_ranges size conns).length)
    (hst : ∀ p ∈ (get_chunk_ranges size conns).zip streams,
      p.2.flatten = (remote.drop p.1.1).take (p.1.2 + 1 - p.1.1))
    (σ : List (Nat × List Nat))
    (hσ : σ.Perm (allDirectWrites (get_chunk_ranges size conns) streams))
    (f : Nat → Nat) :
    ∀ k, k < size → applyWrites f σ k = remote.getD k 0 := by
  intro k hk
  have hcd : 1 ≤ ceilDiv size conns := ceilDiv_pos hs hc
  have hranges : get_chunk_ranges size conns = chunkLoop (ceilDiv size conns) 0 size := by
    rw [get_chunk_ranges, if_neg (by omega)]
  -- every write in σ is faithful to the remote bytes
  have hgood : ∀ w ∈ σ, GoodWrite remote w := by
    intro w hwσ
    have hw : w ∈ allDirectWrites (get_chunk_ranges size conns) streams :=
      (hσ.mem_iff).mp hwσ
    rw [allDirectWrites, List.mem_flatMap] at hw
    rcases hw with ⟨p, hpz, hwp⟩
    have hflat := hst p hpz
    refine directWorkerWrites_good remote p.2 p.1.1 ?_ w hwp
    intro j hj
    exact flatten_slice_elementwise remote p.1.1 (p.1.2 + 1 - p.1.1) p.2.flatten hflat j hj
  -- offset k is covered by some worker's writes
  have hcov : ∃ w ∈ σ, w.1 ≤ k ∧ k < w.1 + w.2.length := by
    have hkspan : k ∈ rangesSpan (get_chunk_ranges size conns) := by
      rw [hranges, chunkLoop_span _ hcd size 0]
      rw [List.mem_range']
      exact ⟨k, hk, by omega⟩
    rw [rangesSpan, List.mem_flatMap] at hkspan
    rcases hkspan with ⟨r, hrmem, hkr⟩
    obtain ⟨r1, r2⟩ := r
    rw [List.mem_range'] at hkr
    rcases hkr with ⟨i, hi, hki⟩
    rcases zip_exists_of_mem (get_chunk_ranges size conns) streams hlen.symm (r1, r2) hrmem
      with ⟨st, hzip⟩
    have hflat := hst ((r1, r2), st) hzip
    have hrb := chunkLoop_mem _ hcd size 0 (r1, r2) (by rwa [← hranges])
    simp only at hrb hflat hki hi
    -- the worker's chunk total equals its range length
    have hFlen : st.flatten.length = r2 + 1 - r1 := by
      rw [hflat, List.length_take, List.length_drop]
      omega
    have hcover := directWorkerWrites_cover st r1 k (by omega)
      (by rw [hFlen]; omega)
    rcases hcover with ⟨w, hwmem, hwk⟩
    refine ⟨w, ?_, hwk⟩
    rw [hσ.mem_iff, allDirectWrites, List.mem_flatMap]
    exact ⟨((r1, r2), st), hzip, hwmem⟩
  exact applyWrites_covered remote σ f k hgood hcov

end Turbodl

namespace Turbodl

/-- Witness for C3 at a 2-byte remote file served to a single worker. -/
theorem direct_download_reproduces_remote_witness :
    (1 ≤ 2 ∧ 1 ≤ 1 ∧ ([7, 9] : List Nat).length = 2
      ∧ ([[[7], [9]]] : List (List (List Nat))).length = (get_chunk_ranges 2 1).length
      ∧ (∀ p ∈ (get_chunk_ranges 2 1).zip ([[[7], [9]]] : List (List (List Nat))),
          p.2.flatten = (([7, 9] : List Nat).drop p.1.1).take (p.1.2 + 1 - p.1.1)))
    ∧ (∀ k, k < 2 →
        applyWrites (fun _ => 0)
          (allDirectWrites (get_chunk_ranges 2 1) [[[7], [9]]]) k
          = ([7, 9] : List Nat).getD k 0) := by
  have hgc : get_chunk_ranges 2 1 = [(0, 1)] := by
    rw [get_chunk_ranges, if_neg (by norm_num : ¬(2 = 0))]
    rw [chunkLoop]
    norm_num [ceilDiv]
    rw [chunkLoop]
    norm_num
  refine ⟨⟨by norm_num, by norm_num, by decide, by rw [hgc]; rfl, ?_⟩, ?_⟩
  · rw [hgc]
    decide
  · exact direct_download_reproduces_remote 2 1 (by norm_num) (by norm_num)
      [7, 9] (by decide) [[[7], [9]]] (by rw [hgc]; rfl) (by rw [hgc]; decide)
      (allDirectWrites (get_chunk_ranges 2 1) [[[7], [9]]])
      (List.Perm.refl _) (fun _ => 0)

end Turbodl

namespace Turbodl

/-! ## Claim C9: lifetime cap of a `ChunkBuffer`; claim C1 groundwork -/

theorem write_maxBufferSize_eq (b : ChunkBuffer) (d : List Nat) (fs : Nat) :
    (ChunkBuffer.write b d fs).1.maxBufferSize = b.maxBufferSize := by
  rw [ChunkBuffer.write]
  split
  · rfl
  split
  · rfl
  split
  · rfl
  split
  · rfl
  · rfl

theorem write_totalBuffered_le (b : ChunkBuffer) (d : List Nat) (fs : Nat)
    (h : b.totalBuffered ≤ b.maxBufferSize) :
    (ChunkBuffer.write b d fs).1.totalBuffered ≤ b.maxBufferSize := by
  rw [ChunkBuffer.write]
  split
  · exact h
  split
  · exact h
  split
  · exact h
  next h1 h2 h3 =>
    split
    · simp only
      omega
    · simp only
      omega

/-- Refusal at the lifetime cap: once `total_buffered` has reached
`max_buffer_size`, a write of nonempty data is refused — the buffer is
unchanged and nothing is appended or emitted. -/
theorem write_refused_at_cap (b : ChunkBuffer) (d : List Nat) (fs : Nat)
    (hcap : b.maxBufferSize ≤ b.totalBuffered) (hd : 1 ≤ d.length) :
    ChunkBuffer.write b d fs = (b, none) := by
  rw [ChunkBuffer.write]
  by_cases h1 : b.maxBufferSize < b.currentSize + d.length
  · rw [if_pos h1]
  · rw [if_neg h1, if_pos (by omega)]

theorem runWrites_totalBuffered_le (fs : Nat) (stream : List (List Nat)) :
    ∀ b : ChunkBuffer, b.totalBuffered ≤ b.maxBufferSize →
      (runWrites b stream fs).totalBuffered ≤ (runWrites b stream fs).maxBufferSize := by
  induction stream with
  | nil => intro b h; exact h
  | cons d ds ih =>
    intro b h
    rw [runWrites]
    refine ih _ ?_
    have h1 := write_totalBuffered_le b d fs h
    have h2 := write_maxBufferSize_eq b d fs
    omega

theorem runWrites_maxBufferSize_eq (fs : Nat) (stream : List (List Nat)) :
    ∀ b : ChunkBuffer, (runWrites b stream fs).maxBufferSize = b.maxBufferSize := by
  induction stream with
  | nil => intro b; rfl
  | cons d ds ih =>
    intro b
    rw [runWrites, ih, write_maxBufferSize_eq]

/-- C9: over any write sequence from construction, `total_buffered` never
exceeds `max_buffer_size = min(max_buffer_bytes, ram allowance)`; and once
the lifetime total has reached `max_buffer_size`, every subsequent write of
(nonempty) data is refused, returning `none` with the buffer unchanged —
even though earlier emissions may have emptied the staged region.  A single
buffer therefore never accepts more than `max_buffer_size` bytes over its
lifetime. -/
theorem chunk_buffer_lifetime_cap (chunkSizeBytes maxBufferBytes ramAllowance fs : Nat)
    (stream : List (List Nat)) (d : List Nat) (hd : 1 ≤ d.length) :
    (runWrites (ChunkBuffer.init chunkSizeBytes maxBufferBytes ramAllowance) stream fs).totalBuffered
      ≤ min maxBufferBytes ramAllowance
    ∧ ((runWrites (ChunkBuffer.init chunkSizeBytes maxBufferBytes ramAllowance) stream fs).totalBuffered
          = min maxBufferBytes ramAllowance →
        ∀ fs2, ChunkBuffer.write
            (runWrites (ChunkBuffer.init chunkSizeBytes maxBufferBytes ramAllowance) stream fs) d fs2
          = (runWrites (ChunkBuffer.init chunkSizeBytes maxBufferBytes ramAllowance) stream fs, none)) := by
  set b0 := ChunkBuffer.init chunkSizeBytes maxBufferBytes ramAllowance with hb0
  have hinit : b0.totalBuffered ≤ b0.maxBufferSize := by
    rw [hb0, ChunkBuffer.init]
    exact Nat.zero_le _
  have hmax : (runWrites b0 stream fs).maxBufferSize = min maxBufferBytes ramAllowance := by
    rw [runWrites_maxBufferSize_eq, hb0, ChunkBuffer.init]
  have hle := runWrites_totalBuffered_le fs stream b0 hinit
  constructor
  · omega
  · intro hcap fs2
    exact write_refused_at_cap _ d fs2 (by omega) hd

/-- Witness for C9: chunk size 4, cap 4, RAM allowance 4, two 2-byte writes
reach the lifetime cap, after which a 1-byte write is refused. -/
theorem chunk_buffer_lifetime_cap_witness :
    (1 ≤ ([5] : List Nat).length)
    ∧ ((runWrites (ChunkBuffer.init 4 4 4) [[1, 1], [2, 2]] 100).totalBuffered ≤ min 4 4
      ∧ ((runWrites (ChunkBuffer.init 4 4 4) [[1, 1], [2, 2]] 100).totalBuffered = min 4 4 →
          ∀ fs2, ChunkBuffer.write (runWrites (ChunkBuffer.init 4 4 4) [[1, 1], [2, 2]] 100) [5] fs2
            = (runWrites (ChunkBuffer.init 4 4 4) [[1, 1], [2, 2]] 100, none))) :=
  ⟨by norm_num, chunk_buffer_lifetime_cap 4 4 4 100 [[1, 1], [2, 2]] [5] (by norm_num)⟩

end Turbodl

namespace Turbodl

/-! ## Claim C1: the buffered worker drops refused bytes

Scenario (all quantities as in the source defaults): a 3 GiB file is
downloaded with `max_connections = 2`, so `functions.get_chunk_ranges`
assigns each worker a 1.5 GiB range (1536 MiB = 1536·2²⁰ bytes).  The
worker constructs `ChunkBuffer()` with the default chunk size 256 MiB and
default cap 1 GiB; on a machine whose 30% RAM allowance is at least 1 GiB,
`max_buffer_size = 2³⁰`.  The worker streams its range in 1 MiB network
chunks.  The first 1024 MiB are accepted (emitted in four 256 MiB blobs);
from then on `total_buffered + len(data) > max_buffer_size`, so every
write is refused, the worker never retries, and the remaining 512 MiB are
silently dropped: only 2³⁰ of the 1536·2²⁰ range bytes reach the file. -/

/-- One accepted 1 MiB write in the C1 scenario (`a` is the number of MiB
currently staged, `t` the number of MiB accepted so far). -/
theorem c1_write_accept (a t : Nat) (ha : a ≤ 255) (ht : t ≤ 1023) :
    ChunkBuffer.write
      ⟨268435456, 1073741824, List.replicate (a * 1048576) 0, a * 1048576, t * 1048576⟩
      (List.replicate 1048576 0) 3221225472
    = if a = 255 then
        (⟨268435456, 1073741824, [], 0, (t + 1) * 1048576⟩,
          some (List.replicate ((a + 1) * 1048576) 0))
      else
        (⟨268435456, 1073741824, List.replicate ((a + 1) * 1048576) 0,
            (a + 1) * 1048576, (t + 1) * 1048576⟩, none) := by
  have hrep : List.replicate (a * 1048576) (0 : Nat) ++ List.replicate 1048576 0
      = List.replicate ((a + 1) * 1048576) 0 := by
    rw [← List.replicate_add, show a * 1048576 + 1048576 = (a + 1) * 1048576 by ring]
  rw [ChunkBuffer.write]
  simp only [List.length_replicate]
  rw [if_neg (by omega), if_neg (by omega), if_neg (by omega)]
  by_cases h255 : a = 255
  · subst h255
    rw [if_pos (show (268435456 : Nat) ≤ 255 * 1048576 + 1048576
        ∨ 3221225472 ≤ t * 1048576 + 1048576
        ∨ 1073741824 ≤ 255 * 1048576 + 1048576 by norm_num)]
    rw [if_pos rfl, hrep, show t * 1048576 + 1048576 = (t + 1) * 1048576 by ring]
  · rw [if_neg (by omega : ¬ ((268435456 : Nat) ≤ a * 1048576 + 1048576
        ∨ 3221225472 ≤ t * 1048576 + 1048576
        ∨ 1073741824 ≤ a * 1048576 + 1048576))]
    rw [if_neg h255, hrep,
      show t * 1048576 + 1048576 = (t + 1) * 1048576 by ring,
      show a * 1048576 + 1048576 = (a + 1) * 1048576 by ring]

end Turbodl

namespace Turbodl

/-- Once the worker has accepted 1024 MiB (= `max_buffer_size`), every
further 1 MiB write is refused: the second guard
`total_buffered + len(data) > max_buffer_size` fires. -/
theorem c1_write_refuse (t : Nat) (ht : 1024 ≤ t) (a : Nat) :
    ChunkBuffer.write
      ⟨268435456, 1073741824, List.replicate (a * 1048576) 0, a * 1048576, t * 1048576⟩
      (List.replicate 1048576 0) 3221225472
    = (⟨268435456, 1073741824, List.replicate (a * 1048576) 0, a * 1048576, t * 1048576⟩,
        none) := by
  rw [ChunkBuffer.write]
  simp only [List.length_replicate]
  by_cases h1 : (1073741824 : Nat) < a * 1048576 + 1048576
  · rw [if_pos h1]
  · rw [if_neg h1, if_pos (by omega)]

/-- Tail of the C1 run, refusing phase: from the state reached after 1024
accepted MiB, no further bytes are ever written (the residual flush is
empty as well). -/
theorem c1_run_refuse (k : Nat) :
    bufferedWorkerWritten ⟨268435456, 1073741824, [], 0, 1073741824⟩
      (List.replicate k (List.replicate 1048576 0)) 3221225472 = 0 := by
  induction k with
  | zero => rfl
  | succ k ih =>
    rw [List.replicate_succ, bufferedWorkerWritten]
    have h := c1_write_refuse 1024 (by omega) 0
    simp only [show (0 : Nat) * 1048576 = 0 by ring, List.replicate_zero,
      show (1024 : Nat) * 1048576 = 1073741824 by ring] at h
    rw [h]
    exact ih

/-- Main C1 run invariant, accepting phase. -/
theorem c1_run_accept :
    ∀ k n, n + k = 1536 → n ≤ 1024 →
      bufferedWorkerWritten
        ⟨268435456, 1073741824, List.replicate ((n % 256) * 1048576) 0,
          (n % 256) * 1048576, n * 1048576⟩
        (List.replicate k (List.replicate 1048576 0)) 3221225472
      = 1073741824 - (n - n % 256) * 1048576 := by
  intro k
  induction k with
  | zero =>
    intro n h1 h2
    exfalso
    omega
  | succ k ih =>
    intro n hn hle
    by_cases h1024 : n = 1024
    · subst h1024
      have hm : (1024 : Nat) % 256 = 0 := by norm_num
      rw [hm]
      simp only [show (0 : Nat) * 1048576 = 0 by ring, List.replicate_zero,
        show (1024 : Nat) * 1048576 = 1073741824 by ring]
      rw [c1_run_refuse]
    · have hn1023 : n ≤ 1023 := by omega
      rw [List.replicate_succ, bufferedWorkerWritten]
      rw [c1_write_accept (n % 256) n (by omega) hn1023]
      by_cases h255 : n % 256 = 255
      · rw [if_pos h255]
        dsimp only
        have ihx := ih (n + 1) (by omega) (by omega)
        have hmod : (n + 1) % 256 = 0 := by omega
        rw [hmod] at ihx
        simp only [show (0 : Nat) * 1048576 = 0 by ring, List.replicate_zero] at ihx
        rw [ihx, List.length_replicate, h255]
        omega
      · rw [if_neg h255]
        dsimp only
        have ihx := ih (n + 1) (by omega) (by omega)
        have hmod : (n + 1) % 256 = n % 256 + 1 := by omega
        rw [hmod] at ihx
        rw [ihx]
        omega

end Turbodl

namespace Turbodl

/-- C1: in buffered mode the worker does NOT back-pressure on refusal —
refused writes are silently dropped.  Concretely: for a 3 GiB file with
`max_connections = 2`, the first worker's range is `(0, 1610612735)`
(1536 MiB); streaming that range in 1 MiB network chunks through the
default `ChunkBuffer()` (chunk size 256 MiB, cap 1 GiB, with a RAM
allowance of 2 GiB so that `max_buffer_size = 1 GiB`), the total number of
bytes the worker writes to the file is 2³⁰ = 1 GiB, strictly fewer than
the 1536·2²⁰ bytes of its range: 512 MiB of network bytes are dropped. -/
theorem buffered_worker_drops_refused_bytes :
    get_chunk_ranges 3221225472 2 = [(0, 1610612735), (1610612736, 3221225471)]
    ∧ ((List.replicate 1536 (List.replicate 1048576 (0 : Nat))).map List.length).sum
        = 1610612735 + 1 - 0
    ∧ bufferedWorkerWritten (ChunkBuffer.init 268435456 1073741824 2147483648)
        (List.replicate 1536 (List.replicate 1048576 0)) 3221225472 = 1073741824
    ∧ 1073741824 < 1610612735 + 1 - 0 := by
  refine ⟨?_, ?_, ?_, by norm_num⟩
  · rw [get_chunk_ranges, if_neg (by norm_num : ¬(3221225472 = 0))]
    rw [chunkLoop]
    norm_num [ceilDiv]
    rw [chunkLoop]
    norm_num
    rw [chunkLoop, dif_pos rfl]
  · simp only [List.map_replicate, List.length_replicate, List.sum_replicate, smul_eq_mul]
  · have hinit : ChunkBuffer.init 268435456 1073741824 2147483648
        = ⟨268435456, 1073741824, List.replicate ((0 % 256) * 1048576) 0,
            (0 % 256) * 1048576, 0 * 1048576⟩ := by
      rw [ChunkBuffer.init]
      norm_num
    rw [hinit]
    have h := c1_run_accept 1536 0 (by norm_num) (by norm_num)
    rw [h]

end Turbodl

namespace Turbodl

/-! ## Claim C6: unparsable or non-positive size is rejected before transfer -/

/-- C6: whenever neither the `Content-Range` total (tried first) nor the
`Content-Length` header yields a positive integer, the probe fails with
`InvalidFileSize`; and a download whose probe fails this way is rejected
by `core.TurboDL.download` before any byte transfer is attempted and
before the output file is created. -/
theorem probe_rejects_unparsable_size (cr cl : Option String)
    (hcr : ∀ v, crTotalParse cr = some v → v ≤ 0)
    (hcl : ∀ v, clParse cl = some v → v ≤ 0) :
    probeSize cr cl = Except.error ErrKind.invalidFileSize
    ∧ ∀ (st : CoreState) (spaceOk : Bool) (transfer : TransferOutcome) (hm : Option Bool),
        (coreDownload st (Except.error ErrKind.invalidFileSize) spaceOk transfer hm).2
          = ⟨some ErrKind.invalidFileSize, false, false, none, false⟩ := by
  constructor
  · rw [probeSize.eq_def]
    rcases hs1 : crTotalParse cr with _ | v
    · rw [if_pos (Or.inl rfl)]
      rcases cl with _ | c
      · rfl
      · dsimp only
        rcases hpc : parsePyInt c with _ | w
        · rfl
        · have hw := hcl w (by simp [clParse, hpc])
          dsimp only
          rw [if_pos hw]
    · have hv := hcr v hs1
      by_cases hv0 : v = 0
      · subst hv0
        rw [if_pos (Or.inr rfl)]
        rcases cl with _ | c
        · dsimp only
          rw [if_pos (by norm_num : (0 : Int) ≤ 0)]
        · dsimp only
          rcases hpc : parsePyInt c with _ | w
          · dsimp only
            rw [if_pos (by norm_num : (0 : Int) ≤ 0)]
          · have hw := hcl w (by simp [clParse, hpc])
            dsimp only
            rw [if_pos hw]
      · rw [if_neg (by
          intro hor
          rcases hor with h | h
          · exact Option.noConfusion h
          · exact hv0 (Option.some.injEq _ _ ▸ h))]
        dsimp only
        rw [if_pos hv]
  · intro st spaceOk transfer hm
    rfl

/-- Witness for C6: a probe response carrying neither a parsable
`Content-Range` total nor a `Content-Length`. -/
theorem probe_rejects_unparsable_size_witness :
    (∀ v, crTotalParse none = some v → v ≤ 0)
    ∧ (∀ v, clParse none = some v → v ≤ 0)
    ∧ probeSize none none = Except.error ErrKind.invalidFileSize
    ∧ (coreDownload ⟨ConnSetting.explicit 4, (100 : ℝ)⟩
        (Except.error ErrKind.invalidFileSize) true TransferOutcome.ok none).2
        = ⟨some ErrKind.invalidFileSize, false, false, none, false⟩ := by
  have hcr : ∀ v, crTotalParse (none : Option String) = some v → v ≤ 0 := by
    intro v hv
    cases hv
  have hcl : ∀ v, clParse (none : Option String) = some v → v ≤ 0 := by
    intro v hv
    cases hv
  have h := probe_rejects_unparsable_size none none hcr hcl
  exact ⟨hcr, hcl, h.1, h.2 ⟨ConnSetting.explicit 4, (100 : ℝ)⟩ true TransferOutcome.ok none⟩

/-! ## Claim C2 and claim C5: what a failed download leaves behind -/

/-- C2 (refutation by evaluation): in the legacy `downloader.py` flow, a
`KeyboardInterrupt` during transfer unlinks the file but RAISES NO ERROR —
the call returns normally (`raised = none`), violating "exactly one error
per failed call"; and a mid-transfer worker failure raises `DownloadError`
but leaves the partial file on disk (`fileOnDisk = true`), violating "no
partial file after any failure". -/
theorem failed_download_report_counterexample :
    downloaderDownload (Except.ok (some 5242880)) true TransferOutcome.interrupted none
      = ⟨none, false, true, none, false⟩
    ∧ downloaderDownload (Except.ok (some 5242880)) true TransferOutcome.failed none
      = ⟨some ErrKind.download, true, true, none, true⟩ :=
  ⟨rfl, rfl⟩

/-- C5 (refutation by evaluation): in `core.TurboDL.download`, after a
successful assembly with a mismatching expected digest, `verify_hash`
raises `HashVerificationError` but the call site performs no cleanup and
`verify_hash` no unlink — the completed file stays on disk
(`fileOnDisk = true`), contradicting "the file is unlinked". -/
theorem hash_mismatch_leaves_file_on_disk :
    (coreDownload ⟨ConnSetting.explicit 4, (100 : ℝ)⟩ (Except.ok ⟨1048576⟩) true
        TransferOutcome.ok (some false)).2
      = ⟨some ErrKind.hashVerification, true, true, some 4, true⟩ :=
  rfl

/-! ## Claim C10: `"auto"` is permanently overwritten on first download -/

/-- C10: a `download` call with `max_connections = "auto"` overwrites the
instance attribute with the integer computed for that call's file size
`s1`; a second download of a file of size `s2` on the same instance then
uses that stored integer (computed from `s1`), not a value recomputed from
`s2`, and the attribute remains that integer. -/
theorem auto_connections_overwritten (speed : ℝ) (s1 s2 : Nat)
    (t1 t2 : TransferOutcome) (hm1 hm2 : Option Bool) :
    (coreDownload ⟨ConnSetting.auto, speed⟩ (Except.ok ⟨s1⟩) true t1 hm1).1.maxConnections
        = ConnSetting.explicit (calculate_max_connections s1 speed)
    ∧ (coreDownload (coreDownload ⟨ConnSetting.auto, speed⟩ (Except.ok ⟨s1⟩) true t1 hm1).1
          (Except.ok ⟨s2⟩) true t2 hm2).2.usedConnections
        = some (calculate_max_connections s1 speed)
    ∧ (coreDownload (coreDownload ⟨ConnSetting.auto, speed⟩ (Except.ok ⟨s1⟩) true t1 hm1).1
          (Except.ok ⟨s2⟩) true t2 hm2).1.maxConnections
        = ConnSetting.explicit (calculate_max_connections s1 speed) := by
  refine ⟨rfl, ?_, rfl⟩
  cases t2 with
  | interrupted => rfl
  | failed => rfl
  | ok =>
    cases hm2 with
    | none => rfl
    | some b =>
      cases b with
      | false => rfl
      | true => rfl

end Turbodl

namespace Turbodl

/-! ## Claim C8: the concrete 5 MiB / 100 Mbps sizing scenario -/

theorem logb_ten_six_bounds :
    (0.77 : ℝ) < Real.logb 10 6 ∧ Real.logb 10 6 < 0.78 := by
  have hlog10 : (0 : ℝ) < Real.log 10 := Real.log_pos (by norm_num)
  constructor
  · rw [Real.logb, lt_div_iff₀ hlog10]
    have hpow : (10 : ℝ) ^ (77 : ℕ) < 6 ^ (100 : ℕ) := by norm_num
    have hlt := Real.log_lt_log (by positivity) hpow
    rw [Real.log_pow, Real.log_pow] at hlt
    push_cast at hlt
    linarith
  · rw [Real.logb, div_lt_iff₀ hlog10]
    have hpow : (6 : ℝ) ^ (100 : ℕ) < 10 ^ (78 : ℕ) := by norm_num
    have hlt := Real.log_lt_log (by positivity) hpow
    rw [Real.log_pow, Real.log_pow] at hlt
    push_cast at hlt
    linarith

/-- Evaluation of the sizing model at 5 MiB, 100 Mbps: size bracket 1-10 MiB
gives `2 + 1.2·log₁₀ 6 ≈ 2.9338`; the speed factor at 100 Mbps is exactly
`0.8 + 0.7·σ(0) = 1.15`; no fine-tuning branch fires (5 < 5 is false); the
product `≈ 3.374` lies strictly inside `(2.5, 3.5)`, so Python rounding
gives 3 — not 2.  The margin to either rounding boundary exceeds 0.12,
astronomically more than any double rounding error. -/
theorem calc_5mib_at_100 : calculate_max_connections (5 * 1024 ^ 2) 100 = 3 := by
  have hL := logb_ten_six_bounds
  have hsz : ((5 * 1024 ^ 2 : ℕ) : ℝ) / ((ONE_MB : ℕ) : ℝ) = 5 := by
    rw [ONE_MB]
    norm_num
  have hbase : baseConnections 5 = 2 + 1.2 * Real.logb 10 6 := by
    rw [baseConnections, if_neg (by norm_num), if_pos (by norm_num)]
    norm_num
  have hsf : speedFactor 100 = 1.15 := by
    rw [speedFactor, if_neg (by norm_num),
      show min (100 : ℝ) 500 = 100 from by norm_num,
      show (-(0.015) * ((100 : ℝ) - 100)) = 0 from by norm_num, Real.exp_zero]
    norm_num
  have hadj : adjustedConnections 5 100 = (2 + 1.2 * Real.logb 10 6) * 1.15 := by
    rw [adjustedConnections, if_neg (by norm_num), if_neg (by norm_num),
      if_neg (by norm_num), hbase, hsf]
  have hlo : (2.5 : ℝ) < adjustedConnections 5 100 := by
    rw [hadj]
    nlinarith [hL.1]
  have hhi : adjustedConnections 5 100 < 3.5 := by
    rw [hadj]
    nlinarith [hL.2]
  have hround : pyRound (adjustedConnections 5 100) = 3 := by
    rw [pyRound, if_neg ?hfrac]
    case hfrac =>
      intro hf
      have hxf : adjustedConnections 5 100
          = (⌊adjustedConnections 5 100⌋ : ℝ) + 1 / 2 := by
        have hfr := Int.fract_add_floor (adjustedConnections 5 100)
        rw [hf] at hfr
        linarith
      have hfl_lo : (2 : ℤ) ≤ ⌊adjustedConnections 5 100⌋ := by
        apply Int.le_floor.mpr
        push_cast
        linarith
      have hfl_hi : ⌊adjustedConnections 5 100⌋ < 4 := by
        have h1 : (⌊adjustedConnections 5 100⌋ : ℝ) < 4 :=
          lt_of_le_of_lt (Int.floor_le _) (by linarith)
        exact_mod_cast h1
      interval_cases h : ⌊adjustedConnections 5 100⌋ <;> push_cast at hxf <;> linarith
    · rw [round_eq]
      apply Int.floor_eq_iff.mpr
      constructor
      · push_cast
        linarith
      · push_cast
        linarith
  rw [calculate_max_connections, hsz, hround]
  rfl

/-- C8 counterexample: the sizing model at 5 MiB and 100 Mbps with
`max_connections = "auto"` returns 3, not the claimed 2. -/
theorem sizing_scenario_counterexample :
    calculate_max_connections (5 * 1024 ^ 2) 100 ≠ 2 := by
  rw [calc_5mib_at_100]
  norm_num

/-- C8 amended: at file size 5 MiB and 100 Mbps with `"auto"`, the sizing
model returns exactly 3 connections, and the range partitioner on that
count returns the single range `(0, 5·2²⁰ − 1)` (the chunk floor of 16 MiB
exceeds the file size, so one chunk covers it). -/
theorem sizing_scenario_amended :
    calculate_max_connections (5 * 1024 ^ 2) 100 = 3
    ∧ generate_chunk_ranges (5 * 1024 ^ 2) 3 = [(0, 5 * 1024 ^ 2 - 1)] := by
  refine ⟨calc_5mib_at_100, ?_⟩
  rw [generate_chunk_ranges]
  rw [chunkLoop]
  norm_num [ceilDiv, MIN_CHUNK_SIZE, MAX_CHUNK_SIZE]
  rw [chunkLoop, dif_pos rfl]

end Turbodl
